import Mathlib

/-!
# Interval manager (`Mini-Projects/IntervalManager.cpp`)

A shallow embedding of the `Interval` struct and the `IntervalManager` class, followed by
theorems about the stored sequence of intervals.

Modelling decisions.

* `int` values are modelled as `Int`.  The class never performs arithmetic on them: it only
  compares them and takes `std::max`, so no operation can overflow and every statement proved
  for all of `Int` holds in particular for the 32-bit range.
* The member `std::vector<Interval> intervals` is a `List Interval`, front of the vector first.
  Each member function takes the vector before the call and returns the vector after it,
  together with the line it prints where it prints one.
* `std::sort` is library code.  Its contract is that the result is a rearrangement of the input
  in which no later element compares less than an earlier one; the order of elements that
  compare equivalent is left open.  The sort is therefore a parameter `sort` of the embedding,
  constrained by `IsStdSort`, and `insertionSort` is one executable instance.
-/

namespace IntervalManager

/-- The struct `Interval`: two `int` fields (`end` is spelled `end_`). -/
structure Interval where
  start : Int
  end_ : Int
deriving DecidableEq, Repr

/-- The comparator `Interval::operator<`: compares the `start` fields only. -/
def Interval.lt (a other : Interval) : Bool :=
  decide (a.start < other.start)

/-- The line an operation writes to `std::cout`, without the numbers. -/
inductive Output where
  | invalid
  | added
  | deleted
  | notFound
  | cleared
deriving DecidableEq, Repr

/-- Postcondition of `std::sort(first, last)` with `operator<`: the output is a rearrangement
of the input and no element compares less than one that precedes it. -/
def IsStdSort (sort : List Interval → List Interval) : Prop :=
  ∀ l, (sort l).Perm l ∧ (sort l).Pairwise (fun a b => Interval.lt b a = false)

/-- Ordered insertion used by `insertionSort`: `x` goes before the first element that does not
compare less than it. -/
def orderedInsert (x : Interval) : List Interval → List Interval
  | [] => [x]
  | y :: ys => if Interval.lt y x then y :: orderedInsert x ys else x :: y :: ys

/-- An executable instance of the sort: insertion sort with `operator<`. -/
def insertionSort : List Interval → List Interval
  | [] => []
  | x :: xs => orderedInsert x (insertionSort xs)

/-- One iteration of the loop of `mergeIntervals` (lines 35-39): `merged` is the output vector
so far, `x` is `intervals[i]`.  `merged` is never empty there (it starts with one element and
never shrinks); on an empty vector, where `back()` is undefined, the element is appended. -/
def mergeStep (merged : List Interval) (x : Interval) : List Interval :=
  match merged.getLast? with
  | some back =>
    if x.start ≤ back.end_ then
      merged.dropLast ++ [{ back with end_ := max back.end_ x.end_ }]
    else
      merged ++ [x]
  | none => merged ++ [x]

/-- The linear pass of `mergeIntervals` (lines 31-40) over the sorted vector. -/
def mergePass : List Interval → List Interval
  | [] => []
  | first :: rest => rest.foldl mergeStep [first]

/-- The member `mergeIntervals` (lines 26-43): nothing on an empty vector, otherwise sort and
run the linear pass. -/
def mergeIntervals (sort : List Interval → List Interval) (intervals : List Interval) :
    List Interval :=
  if intervals.isEmpty then intervals else mergePass (sort intervals)

/-- The member `addInterval` (lines 47-55). -/
def addInterval (sort : List Interval → List Interval) (intervals : List Interval)
    (start end_ : Int) : List Interval × Output :=
  if start > end_ then (intervals, Output.invalid)
  else (mergeIntervals sort (intervals ++ [⟨start, end_⟩]), Output.added)

/-- The member `deleteInterval` (lines 58-70): `std::find_if` for the first element equal to
the pair, then `erase` at that position. -/
def deleteInterval (intervals : List Interval) (start end_ : Int) : List Interval × Output :=
  match intervals.findIdx? (fun i => i.start == start && i.end_ == end_) with
  | some k => (intervals.eraseIdx k, Output.deleted)
  | none => (intervals, Output.notFound)

/-- The member `queryPoint` (lines 73-80). -/
def queryPoint : List Interval → Int → Bool
  | [], _ => false
  | interval :: rest, point =>
    if point ≥ interval.start && point ≤ interval.end_ then true else queryPoint rest point

/-- The member `queryRange` (lines 83-90). -/
def queryRange : List Interval → Int → Int → Bool
  | [], _, _ => false
  | interval :: rest, start, end_ =>
    if !(end_ < interval.start || start > interval.end_) then true
    else queryRange rest start end_

/-- The member `getIntervals` (lines 105-107). -/
def getIntervals (intervals : List Interval) : List Interval := intervals

/-- The member `clear` (lines 110-113). -/
def clear (_intervals : List Interval) : List Interval × Output :=
  ([], Output.cleared)

/-- A call of one of the three mutating members. -/
inductive Op where
  | add (start end_ : Int)
  | delete (start end_ : Int)
  | clear
deriving DecidableEq, Repr

/-- The vector after one mutating call. -/
def step (sort : List Interval → List Interval) (intervals : List Interval) :
    Op → List Interval
  | Op.add s e => (addInterval sort intervals s e).1
  | Op.delete s e => (deleteInterval intervals s e).1
  | Op.clear => (clear intervals).1

/-- The vector after a sequence of mutating calls on a freshly constructed manager. -/
def run (sort : List Interval → List Interval) (ops : List Op) : List Interval :=
  ops.foldl (step sort) []

/-- A vector is reachable when some finite sequence of calls produces it from the empty one. -/
def Reachable (sort : List Interval → List Interval) (intervals : List Interval) : Prop :=
  ∃ ops, run sort ops = intervals

/-- Every stored interval has `start <= end`. -/
def Valid (l : List Interval) : Prop := ∀ i ∈ l, i.start ≤ i.end_

/-- Every adjacent pair `a, b` of the sequence has `b.start > a.end`. -/
def Separated (l : List Interval) : Prop := l.Chain' (fun a b => b.start > a.end_)

/-- The canonical form of section 3 of the specification. -/
def Canonical (l : List Interval) : Prop := Valid l ∧ Separated l

/-- The linear pass with the last output element carried separately: `cur` is `merged.back()`.
It is related to the loop over `mergeStep` by `foldl_mergeStep`. -/
def mergeLoop (cur : Interval) : List Interval → List Interval
  | [] => [cur]
  | x :: xs =>
    if x.start ≤ cur.end_ then mergeLoop { cur with end_ := max cur.end_ x.end_ } xs
    else cur :: mergeLoop x xs

/-- Coverage at half-integer resolution: `z` stands for the point `z / 2`, so odd `z` are the
midpoints between consecutive integers. -/
def Cov (l : List Interval) (z : Int) : Prop :=
  ∃ i ∈ l, 2 * i.start ≤ z ∧ z ≤ 2 * i.end_

/-! ## Basic lemmas -/

theorem lt_eq_false_iff (a b : Interval) : Interval.lt b a = false ↔ a.start ≤ b.start := by
  simp [Interval.lt]

theorem cov_nil (z : Int) : Cov [] z ↔ False := by
  simp [Cov]

theorem cov_cons (a : Interval) (l : List Interval) (z : Int) :
    Cov (a :: l) z ↔ (2 * a.start ≤ z ∧ z ≤ 2 * a.end_) ∨ Cov l z := by
  simp [Cov]

theorem cov_append (l₁ l₂ : List Interval) (z : Int) :
    Cov (l₁ ++ l₂) z ↔ Cov l₁ z ∨ Cov l₂ z := by
  simp only [Cov, List.mem_append]
  constructor
  · rintro ⟨i, hi | hi, h⟩
    · exact Or.inl ⟨i, hi, h⟩
    · exact Or.inr ⟨i, hi, h⟩
  · rintro (⟨i, hi, h⟩ | ⟨i, hi, h⟩)
    · exact ⟨i, Or.inl hi, h⟩
    · exact ⟨i, Or.inr hi, h⟩

theorem cov_perm {l₁ l₂ : List Interval} (h : l₁.Perm l₂) (z : Int) : Cov l₁ z ↔ Cov l₂ z := by
  simp only [Cov]
  constructor
  · rintro ⟨i, hi, hz⟩
    exact ⟨i, h.mem_iff.mp hi, hz⟩
  · rintro ⟨i, hi, hz⟩
    exact ⟨i, h.mem_iff.mpr hi, hz⟩

theorem foldl_mergeStep (xs pre : List Interval) (cur : Interval) :
    xs.foldl mergeStep (pre ++ [cur]) = pre ++ mergeLoop cur xs := by
  induction xs generalizing pre cur with
  | nil => simp [mergeLoop]
  | cons x xs ih =>
    rw [List.foldl_cons]
    by_cases h : x.start ≤ cur.end_
    · have hstep : mergeStep (pre ++ [cur]) x
          = pre ++ [{ cur with end_ := max cur.end_ x.end_ }] := by
        simp [mergeStep, h]
      rw [hstep, ih, mergeLoop, if_pos h]
    · have hstep : mergeStep (pre ++ [cur]) x = (pre ++ [cur]) ++ [x] := by
        simp [mergeStep, h]
      rw [hstep, ih, mergeLoop, if_neg h]
      simp

theorem mergePass_cons (first : Interval) (rest : List Interval) :
    mergePass (first :: rest) = mergeLoop first rest := by
  have h := foldl_mergeStep rest [] first
  simpa [mergePass] using h

theorem mergeLoop_head (xs : List Interval) (cur : Interval) :
    ∃ e t, mergeLoop cur xs = ⟨cur.start, e⟩ :: t ∧ cur.end_ ≤ e := by
  induction xs generalizing cur with
  | nil => exact ⟨cur.end_, [], rfl, le_refl _⟩
  | cons x xs ih =>
    by_cases h : x.start ≤ cur.end_
    · obtain ⟨e, t, he, hle⟩ := ih { cur with end_ := max cur.end_ x.end_ }
      refine ⟨e, t, ?_, ?_⟩
      · rw [mergeLoop, if_pos h, he]
      · exact le_trans (le_max_left _ _) hle
    · exact ⟨cur.end_, mergeLoop x xs, by rw [mergeLoop, if_neg h], le_refl _⟩

theorem separated_mergeLoop (xs : List Interval) (cur : Interval) :
    Separated (mergeLoop cur xs) := by
  induction xs generalizing cur with
  | nil => simp [mergeLoop, Separated]
  | cons x xs ih =>
    by_cases h : x.start ≤ cur.end_
    · rw [mergeLoop, if_pos h]
      exact ih _
    · rw [mergeLoop, if_neg h]
      obtain ⟨e, t, he, -⟩ := mergeLoop_head xs x
      have hx := ih x
      unfold Separated at hx ⊢
      rw [he] at hx ⊢
      exact List.Chain'.cons (by show x.start > cur.end_; omega) hx

theorem valid_mergeLoop (xs : List Interval) (cur : Interval)
    (hc : cur.start ≤ cur.end_) (hxs : Valid xs) : Valid (mergeLoop cur xs) := by
  induction xs generalizing cur with
  | nil =>
    intro i hi
    simp only [mergeLoop, List.mem_singleton] at hi
    rw [hi]; exact hc
  | cons x xs ih =>
    have hx : x.start ≤ x.end_ := hxs x (List.mem_cons_self _ _)
    have hxs' : Valid xs := fun i hi => hxs i (List.mem_cons_of_mem _ hi)
    by_cases h : x.start ≤ cur.end_
    · rw [mergeLoop, if_pos h]
      exact ih _ (le_trans hc (le_max_left _ _)) hxs'
    · rw [mergeLoop, if_neg h]
      intro i hi
      rcases List.mem_cons.mp hi with hi | hi
      · rw [hi]; exact hc
      · exact ih x hx hxs' i hi

theorem cov_mergeLoop (xs : List Interval) (cur : Interval)
    (hle : ∀ x ∈ xs, cur.start ≤ x.start)
    (hs : xs.Pairwise (fun a b => a.start ≤ b.start)) (z : Int) :
    Cov (mergeLoop cur xs) z ↔ Cov (cur :: xs) z := by
  induction xs generalizing cur with
  | nil => simp [mergeLoop]
  | cons x xs ih =>
    have hx := hle x (List.mem_cons_self _ _)
    rw [List.pairwise_cons] at hs
    by_cases h : x.start ≤ cur.end_
    · rw [mergeLoop, if_pos h,
        ih { cur with end_ := max cur.end_ x.end_ }
          (fun y hy => hle y (List.mem_cons_of_mem _ hy)) hs.2]
      simp only [cov_cons]
      by_cases hP : Cov xs z
      · simp only [hP, or_true]
      · simp only [hP, or_false]
        omega
    · rw [mergeLoop, if_neg h, cov_cons, ih x (fun y hy => hs.1 y hy) hs.2, cov_cons cur]

/-! ## The sort contract and `mergeIntervals` -/

theorem sort_perm {sort : List Interval → List Interval} (hs : IsStdSort sort)
    (l : List Interval) : (sort l).Perm l :=
  (hs l).1

theorem sort_sorted {sort : List Interval → List Interval} (hs : IsStdSort sort)
    (l : List Interval) : (sort l).Pairwise (fun a b => a.start ≤ b.start) :=
  (hs l).2.imp (fun {a b} h => (lt_eq_false_iff a b).mp h)

theorem separated_mergePass (l : List Interval) : Separated (mergePass l) := by
  cases l with
  | nil => simp [mergePass, Separated]
  | cons a l => rw [mergePass_cons]; exact separated_mergeLoop l a

theorem valid_mergePass (l : List Interval) (h : Valid l) : Valid (mergePass l) := by
  cases l with
  | nil => simpa [mergePass] using h
  | cons a l =>
    rw [mergePass_cons]
    exact valid_mergeLoop l a (h a (List.mem_cons_self _ _))
      (fun i hi => h i (List.mem_cons_of_mem _ hi))

theorem cov_mergePass (l : List Interval) (hs : l.Pairwise (fun a b => a.start ≤ b.start))
    (z : Int) : Cov (mergePass l) z ↔ Cov l z := by
  cases l with
  | nil => simp [mergePass]
  | cons a l =>
    rw [mergePass_cons]
    rw [List.pairwise_cons] at hs
    exact cov_mergeLoop l a hs.1 hs.2 z

theorem mergeIntervals_eq {sort : List Interval → List Interval} (hs : IsStdSort sort)
    (l : List Interval) : mergeIntervals sort l = mergePass (sort l) := by
  cases l with
  | nil =>
    have h : sort [] = [] := List.Perm.eq_nil (sort_perm hs [])
    simp [mergeIntervals, h, mergePass]
  | cons a l => simp [mergeIntervals]

theorem valid_perm {l₁ l₂ : List Interval} (h : l₁.Perm l₂) (hv : Valid l₂) : Valid l₁ :=
  fun i hi => hv i (h.mem_iff.mp hi)

theorem cov_mergeIntervals {sort : List Interval → List Interval} (hs : IsStdSort sort)
    (l : List Interval) (z : Int) : Cov (mergeIntervals sort l) z ↔ Cov l z := by
  rw [mergeIntervals_eq hs, cov_mergePass _ (sort_sorted hs l), cov_perm (sort_perm hs l)]

theorem canonical_mergeIntervals {sort : List Interval → List Interval} (hs : IsStdSort sort)
    (l : List Interval) (hv : Valid l) : Canonical (mergeIntervals sort l) := by
  rw [mergeIntervals_eq hs]
  exact ⟨valid_mergePass _ (valid_perm (sort_perm hs l) hv), separated_mergePass _⟩

/-! ## `addInterval` -/

theorem addInterval_of_le (sort : List Interval → List Interval) (l : List Interval)
    {s e : Int} (h : s ≤ e) :
    addInterval sort l s e = (mergeIntervals sort (l ++ [⟨s, e⟩]), Output.added) := by
  simp [addInterval, h]

theorem addInterval_of_gt (sort : List Interval → List Interval) (l : List Interval)
    {s e : Int} (h : s > e) : addInterval sort l s e = (l, Output.invalid) := by
  simp [addInterval, h]

theorem valid_snoc {l : List Interval} (hv : Valid l) {s e : Int} (h : s ≤ e) :
    Valid (l ++ [⟨s, e⟩]) := by
  intro i hi
  rcases List.mem_append.mp hi with hi | hi
  · exact hv i hi
  · rw [List.mem_singleton.mp hi]; exact h

theorem cov_addInterval {sort : List Interval → List Interval} (hs : IsStdSort sort)
    (l : List Interval) {s e : Int} (h : s ≤ e) (z : Int) :
    Cov (addInterval sort l s e).1 z ↔ Cov l z ∨ (2 * s ≤ z ∧ z ≤ 2 * e) := by
  rw [addInterval_of_le sort l h]
  show Cov (mergeIntervals sort (l ++ [⟨s, e⟩])) z ↔ _
  rw [cov_mergeIntervals hs, cov_append, cov_cons, cov_nil, or_false]

theorem canonical_addInterval_of_valid {sort : List Interval → List Interval}
    (hs : IsStdSort sort) (l : List Interval) (hv : Valid l) {s e : Int} (h : s ≤ e) :
    Canonical (addInterval sort l s e).1 := by
  rw [addInterval_of_le sort l h]
  exact canonical_mergeIntervals hs _ (valid_snoc hv h)

theorem canonical_addInterval {sort : List Interval → List Interval} (hs : IsStdSort sort)
    (l : List Interval) (hc : Canonical l) (s e : Int) :
    Canonical (addInterval sort l s e).1 := by
  by_cases h : s ≤ e
  · exact canonical_addInterval_of_valid hs l hc.1 h
  · rw [addInterval_of_gt sort l (by omega)]
    exact hc

/-! ## Canonical sequences -/

theorem canonical_nil : Canonical [] :=
  ⟨fun _ hi => absurd hi (List.not_mem_nil _), List.chain'_nil⟩

theorem canonical_pairwise {l : List Interval} (hc : Canonical l) :
    l.Pairwise (fun a b => a.end_ < b.start) := by
  induction l with
  | nil => exact List.Pairwise.nil
  | cons a l ih =>
    obtain ⟨hv, hsep⟩ := hc
    unfold Separated at hsep
    rw [List.chain'_cons'] at hsep
    have hl : Canonical l := ⟨fun i hi => hv i (List.mem_cons_of_mem _ hi), hsep.2⟩
    have hp := ih hl
    refine List.Pairwise.cons ?_ hp
    intro i hi
    cases l with
    | nil => exact absurd hi (List.not_mem_nil _)
    | cons b l =>
      have hab : a.end_ < b.start := hsep.1 b (by simp)
      rcases List.mem_cons.mp hi with hi | hi
      · rw [hi]; exact hab
      · have hb : b.start ≤ b.end_ := hv b (by simp)
        have hbi : b.end_ < i.start := (List.pairwise_cons.mp hp).1 i hi
        omega

theorem canonical_of_pairwise {l : List Interval} (hv : Valid l)
    (hp : l.Pairwise (fun a b => a.end_ < b.start)) : Canonical l :=
  ⟨hv, List.Pairwise.chain' hp⟩

theorem canonical_sublist {l₁ l₂ : List Interval} (h : l₁.Sublist l₂) (hc : Canonical l₂) :
    Canonical l₁ :=
  canonical_of_pairwise (fun i hi => hc.1 i (h.subset hi)) ((canonical_pairwise hc).sublist h)

theorem canonical_cons {a : Interval} {l : List Interval} (hc : Canonical (a :: l)) :
    a.start ≤ a.end_ ∧ (∀ i ∈ l, a.end_ < i.start) ∧ Canonical l :=
  ⟨hc.1 a (List.mem_cons_self _ _), (List.pairwise_cons.mp (canonical_pairwise hc)).1,
    canonical_sublist (List.sublist_cons_self a l) hc⟩

theorem canonical_head_start_le {a b : Interval} {as bs : List Interval}
    (ha : Canonical (a :: as)) (hb : Canonical (b :: bs))
    (h : ∀ z, Cov (a :: as) z → Cov (b :: bs) z) : b.start ≤ a.start := by
  obtain ⟨hav, -, -⟩ := canonical_cons ha
  obtain ⟨hbv, hbs, -⟩ := canonical_cons hb
  obtain ⟨i, hi, h1, h2⟩ := h (2 * a.start) ⟨a, List.mem_cons_self _ _, by omega, by omega⟩
  rcases List.mem_cons.mp hi with hi | hi
  · rw [hi] at h1; omega
  · have := hbs i hi
    omega

theorem canonical_head_end_le {a b : Interval} {as bs : List Interval}
    (ha : Canonical (a :: as)) (hb : Canonical (b :: bs)) (hst : a.start = b.start)
    (h : ∀ z, Cov (b :: bs) z → Cov (a :: as) z) : b.end_ ≤ a.end_ := by
  obtain ⟨hav, has, -⟩ := canonical_cons ha
  obtain ⟨hbv, -, -⟩ := canonical_cons hb
  by_contra hlt
  obtain ⟨i, hi, h1, h2⟩ :=
    h (2 * a.end_ + 1) ⟨b, List.mem_cons_self _ _, by omega, by omega⟩
  rcases List.mem_cons.mp hi with hi | hi
  · rw [hi] at h2; omega
  · have := has i hi
    omega

theorem canonical_tail_cov {a : Interval} {as bs : List Interval}
    (ha : Canonical (a :: as)) (h : ∀ z, Cov (a :: as) z → Cov (a :: bs) z)
    (z : Int) (hz : Cov as z) : Cov bs z := by
  obtain ⟨-, has, -⟩ := canonical_cons ha
  obtain ⟨i, hi, h1, h2⟩ := hz
  have hai := has i hi
  rcases (cov_cons a bs z).mp (h z ((cov_cons a as z).mpr (Or.inr ⟨i, hi, h1, h2⟩))) with hc | hc
  · omega
  · exact hc

/-- Two canonical sequences that cover the same half-integer points are equal. -/
theorem canonical_ext {l₁ l₂ : List Interval} (h₁ : Canonical l₁) (h₂ : Canonical l₂)
    (h : ∀ z, Cov l₁ z ↔ Cov l₂ z) : l₁ = l₂ := by
  induction l₁ generalizing l₂ with
  | nil =>
    cases l₂ with
    | nil => rfl
    | cons b bs =>
      have hb := (canonical_cons h₂).1
      exact absurd ((h (2 * b.start)).mpr ⟨b, List.mem_cons_self _ _, by omega, by omega⟩)
        (by simp [cov_nil])
  | cons a as ih =>
    cases l₂ with
    | nil =>
      have ha := (canonical_cons h₁).1
      exact absurd ((h (2 * a.start)).mp ⟨a, List.mem_cons_self _ _, by omega, by omega⟩)
        (by simp [cov_nil])
    | cons b bs =>
      have hst : a.start = b.start :=
        le_antisymm (canonical_head_start_le h₂ h₁ (fun z => (h z).mpr))
          (canonical_head_start_le h₁ h₂ (fun z => (h z).mp))
      have hen : a.end_ = b.end_ :=
        le_antisymm (canonical_head_end_le h₂ h₁ hst.symm (fun z => (h z).mp))
          (canonical_head_end_le h₁ h₂ hst (fun z => (h z).mpr))
      have hab : a = b := by
        cases a; cases b; simp only [Interval.mk.injEq]; exact ⟨hst, hen⟩
      subst hab
      have htl : as = bs :=
        ih (canonical_cons h₁).2.2 (canonical_cons h₂).2.2
          (fun z => ⟨canonical_tail_cov h₁ (fun z => (h z).mp) z,
            canonical_tail_cov h₂ (fun z => (h z).mpr) z⟩)
      rw [htl]

/-! ## The executable sort meets the contract -/

theorem orderedInsert_perm (x : Interval) (l : List Interval) :
    (orderedInsert x l).Perm (x :: l) := by
  induction l with
  | nil => exact List.Perm.refl _
  | cons y ys ih =>
    by_cases h : Interval.lt y x = true
    · rw [orderedInsert, if_pos h]
      exact (List.Perm.cons y ih).trans (List.Perm.swap x y ys)
    · rw [orderedInsert, if_neg h]

theorem orderedInsert_sorted (x : Interval) (l : List Interval)
    (hl : l.Pairwise (fun a b => a.start ≤ b.start)) :
    (orderedInsert x l).Pairwise (fun a b => a.start ≤ b.start) := by
  induction l with
  | nil => simp [orderedInsert]
  | cons y ys ih =>
    rw [List.pairwise_cons] at hl
    by_cases h : Interval.lt y x = true
    · rw [orderedInsert, if_pos h]
      have hyx : y.start < x.start := by simpa [Interval.lt] using h
      refine List.Pairwise.cons ?_ (ih hl.2)
      intro b hb
      rcases List.mem_cons.mp ((orderedInsert_perm x ys).mem_iff.mp hb) with hb | hb
      · rw [hb]; omega
      · exact hl.1 b hb
    · rw [orderedInsert, if_neg h]
      have hxy : x.start ≤ y.start := by simpa [Interval.lt] using h
      refine List.Pairwise.cons ?_ (List.Pairwise.cons hl.1 hl.2)
      intro b hb
      rcases List.mem_cons.mp hb with hb | hb
      · rw [hb]; exact hxy
      · exact le_trans hxy (hl.1 b hb)

theorem insertionSort_perm (l : List Interval) : (insertionSort l).Perm l := by
  induction l with
  | nil => exact List.Perm.refl _
  | cons x xs ih => exact (orderedInsert_perm x _).trans (List.Perm.cons x ih)

theorem insertionSort_sorted (l : List Interval) :
    (insertionSort l).Pairwise (fun a b => a.start ≤ b.start) := by
  induction l with
  | nil => exact List.Pairwise.nil
  | cons x xs ih => exact orderedInsert_sorted x _ ih

theorem insertionSort_isStdSort : IsStdSort insertionSort :=
  fun l => ⟨insertionSort_perm l,
    (insertionSort_sorted l).imp (fun {a b} h => (lt_eq_false_iff a b).mpr h)⟩

/-! ## Queries -/

theorem queryPoint_iff (l : List Interval) (p : Int) :
    queryPoint l p = true ↔ ∃ i ∈ l, i.start ≤ p ∧ p ≤ i.end_ := by
  induction l with
  | nil => simp [queryPoint]
  | cons a l ih =>
    by_cases h : a.start ≤ p ∧ p ≤ a.end_
    · simp [queryPoint, h]
    · have h' : ¬ (p ≥ a.start ∧ p ≤ a.end_) := h
      simp [queryPoint, h', ih, h]

theorem queryPoint_iff_cov (l : List Interval) (p : Int) :
    queryPoint l p = true ↔ Cov l (2 * p) := by
  rw [queryPoint_iff]
  constructor
  · rintro ⟨i, hi, h1, h2⟩
    exact ⟨i, hi, by omega, by omega⟩
  · rintro ⟨i, hi, h1, h2⟩
    exact ⟨i, hi, by omega, by omega⟩

theorem queryRange_iff (l : List Interval) (s e : Int) :
    queryRange l s e = true ↔ ∃ i ∈ l, ¬ (e < i.start ∨ s > i.end_) := by
  induction l with
  | nil => simp [queryRange]
  | cons a l ih =>
    by_cases h : e < a.start ∨ s > a.end_
    · simp [queryRange, h, ih]
    · have h1 : a.start ≤ e := by omega
      have h2 : s ≤ a.end_ := by omega
      simp [queryRange, h1, h2]

/-! ## `deleteInterval` -/

theorem matches_iff (i : Interval) (s e : Int) :
    (i.start == s && i.end_ == e) = true ↔ i = ⟨s, e⟩ := by
  cases i
  simp

theorem deleteInterval_eq (l : List Interval) (s e : Int) :
    deleteInterval l s e =
      if (⟨s, e⟩ : Interval) ∈ l then (l.erase ⟨s, e⟩, Output.deleted)
      else (l, Output.notFound) := by
  induction l with
  | nil => simp [deleteInterval]
  | cons a l ih =>
    by_cases ha : a = ⟨s, e⟩
    · have hp : (a.start == s && a.end_ == e) = true := (matches_iff a s e).mpr ha
      simp [deleteInterval, hp, ha]
    · have hp : (a.start == s && a.end_ == e) = false := by
        rw [← Bool.not_eq_true, matches_iff]; exact ha
      have hne : (⟨s, e⟩ : Interval) ≠ a := fun h => ha h.symm
      unfold deleteInterval at ih ⊢
      rw [List.findIdx?_cons, hp]
      simp only [Bool.false_eq_true, if_false, List.findIdx?_succ, zero_add]
      cases hfi : List.findIdx? (fun i => i.start == s && i.end_ == e) l with
      | none =>
        rw [hfi] at ih
        by_cases hm : (⟨s, e⟩ : Interval) ∈ l
        · simp [hm] at ih
        · simp [hm, hne]
      | some k =>
        rw [hfi] at ih
        by_cases hm : (⟨s, e⟩ : Interval) ∈ l
        · simp only [hm, if_true, Prod.mk.injEq, and_true] at ih
          simp [hm, ih, List.erase_cons, ha]
        · simp [hm] at ih

theorem deleteInterval_sublist (l : List Interval) (s e : Int) :
    (deleteInterval l s e).1.Sublist l := by
  rw [deleteInterval_eq]
  split
  · exact List.erase_sublist _ _
  · exact List.Sublist.refl _

/-! ## Reachable states -/

theorem canonical_step {sort : List Interval → List Interval} (hs : IsStdSort sort)
    (l : List Interval) (hc : Canonical l) (op : Op) : Canonical (step sort l op) := by
  cases op with
  | add s e => exact canonical_addInterval hs l hc s e
  | delete s e => exact canonical_sublist (deleteInterval_sublist l s e) hc
  | clear => exact canonical_nil

theorem canonical_foldl_step {sort : List Interval → List Interval} (hs : IsStdSort sort)
    (ops : List Op) (l : List Interval) (hc : Canonical l) :
    Canonical (ops.foldl (step sort) l) := by
  induction ops generalizing l with
  | nil => exact hc
  | cons op ops ih => exact ih _ (canonical_step hs l hc op)

theorem canonical_of_reachable {sort : List Interval → List Interval} (hs : IsStdSort sort)
    {l : List Interval} (hr : Reachable sort l) : Canonical l := by
  obtain ⟨ops, rfl⟩ := hr
  exact canonical_foldl_step hs ops [] canonical_nil

/-! ## Consequences used by several statements -/

theorem addInterval_eq_of_cov {sort : List Interval → List Interval} (hs : IsStdSort sort)
    {l L : List Interval} (hv : Valid l) {s e : Int} (h : s ≤ e) (hL : Canonical L)
    (hcov : ∀ z, Cov L z ↔ Cov l z ∨ (2 * s ≤ z ∧ z ≤ 2 * e)) :
    (addInterval sort l s e).1 = L :=
  canonical_ext (canonical_addInterval_of_valid hs l hv h) hL
    (fun z => by rw [cov_addInterval hs l h, hcov])

theorem addInterval_nil {sort : List Interval → List Interval} (hs : IsStdSort sort)
    {s e : Int} (h : s ≤ e) : addInterval sort [] s e = ([⟨s, e⟩], Output.added) := by
  rw [addInterval_of_le sort [] h, mergeIntervals_eq hs]
  have hp : sort [⟨s, e⟩] = [⟨s, e⟩] := List.perm_singleton.mp (sort_perm hs _)
  simp [hp, mergePass]

theorem addInterval_comm {sort : List Interval → List Interval} (hs : IsStdSort sort)
    (l : List Interval) (hc : Canonical l) (a b c d : Int) :
    (addInterval sort (addInterval sort l a b).1 c d).1
      = (addInterval sort (addInterval sort l c d).1 a b).1 := by
  by_cases h1 : a ≤ b
  · by_cases h2 : c ≤ d
    · apply canonical_ext
        (canonical_addInterval hs _ (canonical_addInterval hs l hc a b) c d)
        (canonical_addInterval hs _ (canonical_addInterval hs l hc c d) a b)
      intro z
      rw [cov_addInterval hs _ h2, cov_addInterval hs _ h1, cov_addInterval hs _ h1,
        cov_addInterval hs _ h2]
      tauto
    · rw [addInterval_of_gt sort (addInterval sort l a b).1 (by omega : c > d),
        addInterval_of_gt sort l (by omega : c > d)]
  · rw [addInterval_of_gt sort (addInterval sort l c d).1 (by omega : a > b),
      addInterval_of_gt sort l (by omega : a > b)]

theorem foldl_add_perm {sort : List Interval → List Interval} (hs : IsStdSort sort)
    {ps qs : List (Int × Int)} (h : ps.Perm qs) (l : List Interval) (hc : Canonical l) :
    (ps.map (fun p => Op.add p.1 p.2)).foldl (step sort) l
      = (qs.map (fun p => Op.add p.1 p.2)).foldl (step sort) l := by
  induction h generalizing l with
  | nil => rfl
  | cons x _ ih =>
    simp only [List.map_cons, List.foldl_cons]
    exact ih _ (canonical_step hs l hc _)
  | swap x y ps =>
    simp only [List.map_cons, List.foldl_cons]
    have hxy : step sort (step sort l (Op.add y.1 y.2)) (Op.add x.1 x.2)
        = step sort (step sort l (Op.add x.1 x.2)) (Op.add y.1 y.2) :=
      addInterval_comm hs l hc y.1 y.2 x.1 x.2
    rw [hxy]
  | trans _ _ ih1 ih2 => exact (ih1 l hc).trans (ih2 l hc)

theorem mergeLoop_contains (xs : List Interval) (cur : Interval)
    (hle : ∀ x ∈ xs, cur.start ≤ x.start)
    (hs : xs.Pairwise (fun a b => a.start ≤ b.start)) (x : Interval) (hx : x ∈ cur :: xs) :
    ∃ i ∈ mergeLoop cur xs, i.start ≤ x.start ∧ x.end_ ≤ i.end_ := by
  induction xs generalizing cur x with
  | nil =>
    rw [List.mem_singleton] at hx
    exact ⟨cur, by simp [mergeLoop], by rw [hx], by rw [hx]⟩
  | cons y ys ih =>
    have hy := hle y (List.mem_cons_self _ _)
    rw [List.pairwise_cons] at hs
    by_cases h : y.start ≤ cur.end_
    · rw [mergeLoop, if_pos h]
      have hle' : ∀ w ∈ ys, ({ cur with end_ := max cur.end_ y.end_ } : Interval).start
          ≤ w.start := fun w hw => hle w (List.mem_cons_of_mem _ hw)
      rcases List.mem_cons.mp hx with hx | hx
      · obtain ⟨i, hi, h1, h2⟩ := ih _ hle' hs.2 _ (List.mem_cons_self _ _)
        refine ⟨i, hi, ?_, ?_⟩
        · rw [hx]; exact h1
        · rw [hx]; exact le_trans (le_max_left _ _) h2
      · rcases List.mem_cons.mp hx with hx | hx
        · obtain ⟨i, hi, h1, h2⟩ := ih _ hle' hs.2 _ (List.mem_cons_self _ _)
          refine ⟨i, hi, ?_, ?_⟩
          · rw [hx]; exact le_trans h1 hy
          · rw [hx]; exact le_trans (le_max_right _ _) h2
        · exact ih _ hle' hs.2 x (List.mem_cons_of_mem _ hx)
    · rw [mergeLoop, if_neg h]
      rcases List.mem_cons.mp hx with hx | hx
      · exact ⟨cur, List.mem_cons_self _ _, by rw [hx], by rw [hx]⟩
      · obtain ⟨i, hi, h1, h2⟩ := ih y hs.1 hs.2 x hx
        exact ⟨i, List.mem_cons_of_mem _ hi, h1, h2⟩

theorem addInterval_contains {sort : List Interval → List Interval} (hs : IsStdSort sort)
    (l : List Interval) {s e : Int} (h : s ≤ e) :
    ∃ i ∈ (addInterval sort l s e).1, i.start ≤ s ∧ e ≤ i.end_ := by
  rw [addInterval_of_le sort l h]
  show ∃ i ∈ mergeIntervals sort (l ++ [⟨s, e⟩]), _
  rw [mergeIntervals_eq hs]
  have hmem : (⟨s, e⟩ : Interval) ∈ sort (l ++ [⟨s, e⟩]) :=
    (sort_perm hs _).mem_iff.mpr (by simp)
  have hsorted := sort_sorted hs (l ++ [⟨s, e⟩])
  cases hsl : sort (l ++ [⟨s, e⟩]) with
  | nil => rw [hsl] at hmem; exact absurd hmem (List.not_mem_nil _)
  | cons cur xs =>
    rw [hsl] at hmem hsorted
    rw [List.pairwise_cons] at hsorted
    rw [mergePass_cons]
    exact mergeLoop_contains xs cur hsorted.1 hsorted.2 ⟨s, e⟩ hmem

theorem canonical_disjoint {l : List Interval} (hc : Canonical l) {a b : Interval}
    (ha : a ∈ l) (hb : b ∈ l) (hne : a ≠ b) : a.end_ < b.start ∨ b.end_ < a.start := by
  have hp : l.Pairwise (fun a b => a.end_ < b.start ∨ b.end_ < a.start) :=
    (canonical_pairwise hc).imp (fun {a b} h => Or.inl h)
  exact hp.forall (fun x y hxy => hxy.symm) ha hb hne

theorem countP_le_one (p : Interval → Bool) (l : List Interval)
    (hp : l.Pairwise (fun a b => ¬ (p a = true ∧ p b = true))) : l.countP p ≤ 1 := by
  induction l with
  | nil => simp
  | cons a l ih =>
    rw [List.pairwise_cons] at hp
    rw [List.countP_cons]
    by_cases ha : p a = true
    · have hz : l.countP p = 0 := List.countP_eq_zero.mpr (fun b hb hpb => hp.1 b hb ⟨ha, hpb⟩)
      simp [hz, ha]
    · have := ih hp.2
      simp only [ha, Bool.false_eq_true, if_false]
      omega

/-! ## Further consequences: small canonical lists, deletion, lengths, insertion -/

theorem canonical_singleton {s e : Int} (h : s ≤ e) : Canonical [⟨s, e⟩] := by
  refine ⟨?_, List.chain'_singleton _⟩
  intro i hi
  rw [List.mem_singleton.mp hi]
  exact h

theorem canonical_pair {a b c d : Int} (h1 : a ≤ b) (h2 : b < c) (h3 : c ≤ d) :
    Canonical [⟨a, b⟩, ⟨c, d⟩] := by
  refine canonical_of_pairwise ?_ ?_
  · intro i hi
    simp only [List.mem_cons, List.mem_singleton, List.not_mem_nil, or_false] at hi
    rcases hi with hi | hi <;> rw [hi]
    · exact h1
    · exact h3
  · simp only [List.pairwise_cons, List.mem_singleton, forall_eq, List.not_mem_nil,
      false_implies, implies_true, List.Pairwise.nil, and_true]
    exact h2

theorem canonical_nodup {l : List Interval} (hc : Canonical l) : l.Nodup :=
  List.Pairwise.imp_of_mem
    (fun {a b} ha _ h hab => by
      have := hc.1 a ha
      rw [hab] at h this
      omega)
    (canonical_pairwise hc)

theorem mem_iff_exists_fields (l : List Interval) (s e : Int) :
    (⟨s, e⟩ : Interval) ∈ l ↔ ∃ i ∈ l, i.start = s ∧ i.end_ = e := by
  constructor
  · intro h
    exact ⟨_, h, rfl, rfl⟩
  · rintro ⟨i, hi, h1, h2⟩
    have : i = ⟨s, e⟩ := by cases i; simp only [Interval.mk.injEq]; exact ⟨h1, h2⟩
    rw [← this]; exact hi

theorem deleteInterval_deleted_iff (l : List Interval) (s e : Int) :
    (deleteInterval l s e).2 = Output.deleted ↔ (⟨s, e⟩ : Interval) ∈ l := by
  rw [deleteInterval_eq]
  by_cases h : (⟨s, e⟩ : Interval) ∈ l <;> simp [h]

theorem deleteInterval_of_mem {l : List Interval} {s e : Int} (h : (⟨s, e⟩ : Interval) ∈ l) :
    deleteInterval l s e = (l.erase ⟨s, e⟩, Output.deleted) := by
  rw [deleteInterval_eq, if_pos h]

theorem deleteInterval_of_not_mem {l : List Interval} {s e : Int}
    (h : (⟨s, e⟩ : Interval) ∉ l) : deleteInterval l s e = (l, Output.notFound) := by
  rw [deleteInterval_eq, if_neg h]

theorem mem_erase_canonical {l : List Interval} (hc : Canonical l) (x i : Interval) :
    i ∈ l.erase x ↔ i ≠ x ∧ i ∈ l :=
  (canonical_nodup hc).mem_erase_iff

theorem length_mergeLoop (xs : List Interval) (cur : Interval) :
    1 ≤ (mergeLoop cur xs).length ∧ (mergeLoop cur xs).length ≤ xs.length + 1 := by
  induction xs generalizing cur with
  | nil => simp [mergeLoop]
  | cons x xs ih =>
    by_cases h : x.start ≤ cur.end_
    · rw [mergeLoop, if_pos h]
      have := ih { cur with end_ := max cur.end_ x.end_ }
      simp only [List.length_cons]
      omega
    · rw [mergeLoop, if_neg h]
      have := ih x
      simp only [List.length_cons]
      omega

theorem length_addInterval {sort : List Interval → List Interval} (hs : IsStdSort sort)
    (l : List Interval) {s e : Int} (h : s ≤ e) :
    1 ≤ (addInterval sort l s e).1.length ∧ (addInterval sort l s e).1.length ≤ l.length + 1 := by
  rw [addInterval_of_le sort l h]
  show 1 ≤ (mergeIntervals sort (l ++ [⟨s, e⟩])).length ∧
    (mergeIntervals sort (l ++ [⟨s, e⟩])).length ≤ l.length + 1
  rw [mergeIntervals_eq hs]
  have hlen : (sort (l ++ [⟨s, e⟩])).length = l.length + 1 := by
    rw [(sort_perm hs _).length_eq]
    simp
  cases hsl : sort (l ++ [⟨s, e⟩]) with
  | nil => rw [hsl] at hlen; simp at hlen
  | cons cur xs =>
    rw [hsl] at hlen
    rw [mergePass_cons]
    have := length_mergeLoop xs cur
    simp only [List.length_cons] at hlen
    omega

theorem canonical_split {l : List Interval} (hc : Canonical l) {s e : Int}
    (hd : ∀ i ∈ l, e < i.start ∨ i.end_ < s) :
    ∃ pre post, l = pre ++ post ∧ (∀ i ∈ pre, i.end_ < s) ∧ (∀ i ∈ post, e < i.start) := by
  induction l with
  | nil => exact ⟨[], [], rfl, by simp, by simp⟩
  | cons y ys ih =>
    obtain ⟨hy, hys, hc'⟩ := canonical_cons hc
    by_cases h : e < y.start
    · refine ⟨[], y :: ys, rfl, by simp, ?_⟩
      intro i hi
      rcases List.mem_cons.mp hi with hi | hi
      · rw [hi]; exact h
      · have := hys i hi
        omega
    · obtain ⟨pre, post, hl, hpre, hpost⟩ :=
        ih hc' (fun i hi => hd i (List.mem_cons_of_mem _ hi))
      have hy' : y.end_ < s := by
        rcases hd y (List.mem_cons_self _ _) with h' | h'
        · exact absurd h' h
        · exact h'
      refine ⟨y :: pre, post, by rw [hl]; rfl, ?_, hpost⟩
      intro i hi
      rcases List.mem_cons.mp hi with hi | hi
      · rw [hi]; exact hy'
      · exact hpre i hi

theorem canonical_insert {pre post : List Interval} (hc : Canonical (pre ++ post))
    {s e : Int} (h : s ≤ e) (hpre : ∀ i ∈ pre, i.end_ < s) (hpost : ∀ i ∈ post, e < i.start) :
    Canonical (pre ++ ⟨s, e⟩ :: post) := by
  have hp := List.pairwise_append.mp (canonical_pairwise hc)
  refine canonical_of_pairwise ?_ ?_
  · intro i hi
    rcases List.mem_append.mp hi with hi | hi
    · exact hc.1 i (List.mem_append_left _ hi)
    · rcases List.mem_cons.mp hi with hi | hi
      · rw [hi]; exact h
      · exact hc.1 i (List.mem_append_right _ hi)
  · refine List.pairwise_append.mpr ⟨hp.1, List.Pairwise.cons (fun b hb => hpost b hb) hp.2.1, ?_⟩
    intro a ha b hb
    rcases List.mem_cons.mp hb with hb | hb
    · rw [hb]; exact hpre a ha
    · exact hp.2.2 a ha b hb

theorem not_overlap_of_queryRange_false {l : List Interval} {s e : Int}
    (hq : queryRange l s e = false) : ∀ i ∈ l, e < i.start ∨ i.end_ < s := by
  intro i hi
  by_contra hcon
  have : queryRange l s e = true := (queryRange_iff l s e).mpr ⟨i, hi, by omega⟩
  rw [hq] at this
  exact Bool.false_ne_true this

/-! ## Runs of two and three adds from the empty set -/

theorem run_add_add {sort : List Interval → List Interval} (hs : IsStdSort sort)
    {a b : Int} (h : a ≤ b) (c d : Int) :
    run sort [Op.add a b, Op.add c d] = (addInterval sort [⟨a, b⟩] c d).1 := by
  show (addInterval sort (addInterval sort [] a b).1 c d).1 = _
  rw [addInterval_nil hs h]

theorem run_add_add_overlap {sort : List Interval → List Interval} (hs : IsStdSort sort)
    {a b c d : Int} (h1 : a ≤ b) (h2 : c ≤ d) (h3 : c ≤ b) (h4 : a ≤ d) :
    run sort [Op.add a b, Op.add c d] = [⟨min a c, max b d⟩] := by
  rw [run_add_add hs h1]
  apply addInterval_eq_of_cov hs (canonical_singleton h1).1 h2
    (canonical_singleton (by omega : min a c ≤ max b d))
  intro z
  simp only [cov_cons, cov_nil, or_false]
  omega

theorem run_add_add_right {sort : List Interval → List Interval} (hs : IsStdSort sort)
    {a b c d : Int} (h1 : a ≤ b) (h2 : c ≤ d) (h3 : b < c) :
    run sort [Op.add a b, Op.add c d] = [⟨a, b⟩, ⟨c, d⟩] := by
  rw [run_add_add hs h1]
  apply addInterval_eq_of_cov hs (canonical_singleton h1).1 h2 (canonical_pair h1 h3 h2)
  intro z
  simp only [cov_cons, cov_nil, or_false]

theorem run_add_add_left {sort : List Interval → List Interval} (hs : IsStdSort sort)
    {a b c d : Int} (h1 : a ≤ b) (h2 : c ≤ d) (h3 : d < a) :
    run sort [Op.add a b, Op.add c d] = [⟨c, d⟩, ⟨a, b⟩] := by
  rw [run_add_add hs h1]
  apply addInterval_eq_of_cov hs (canonical_singleton h1).1 h2 (canonical_pair h2 h3 h1)
  intro z
  simp only [cov_cons, cov_nil, or_false]
  tauto

theorem run_scenario_one {sort : List Interval → List Interval} (hs : IsStdSort sort) :
    run sort [Op.add 1 3, Op.add 2 5, Op.add 8 10] = [⟨1, 5⟩, ⟨8, 10⟩] := by
  have h12 : run sort [Op.add 1 3, Op.add 2 5] = [⟨1, 5⟩] :=
    run_add_add_overlap hs (by decide) (by decide) (by decide) (by decide)
  show (addInterval sort (run sort [Op.add 1 3, Op.add 2 5]) 8 10).1 = _
  rw [h12]
  apply addInterval_eq_of_cov hs (canonical_singleton (by decide)).1 (by decide)
    (canonical_pair (by decide) (by decide) (by decide))
  intro z
  simp only [cov_cons, cov_nil, or_false]

/-! ## Statements about the program -/

/-- C1. Canonical-form invariant: in every state reachable from the empty set by calls of
`addInterval`, `deleteInterval` and `clear` with arbitrary arguments, every stored interval has
`start <= end` and every adjacent pair `a, b` has `b.start > a.end`; hence the sequence is
strictly ascending by `start` and any earlier interval ends before any later one starts. -/
theorem reachable_canonical (sort : List Interval → List Interval) (hs : IsStdSort sort)
    (l : List Interval) (hr : Reachable sort l) :
    (∀ i ∈ l, i.start ≤ i.end_) ∧ l.Chain' (fun a b => b.start > a.end_) ∧
      l.Pairwise (fun a b => a.start < b.start) ∧
      l.Pairwise (fun a b => a.end_ < b.start) := by
  have hc := canonical_of_reachable hs hr
  have hp := canonical_pairwise hc
  exact ⟨hc.1, hc.2,
    List.Pairwise.imp_of_mem (fun {a b} ha _ h => lt_of_le_of_lt (hc.1 a ha) h) hp, hp⟩

theorem reachable_canonical_witness :
    IsStdSort insertionSort ∧
    Reachable insertionSort [⟨1, 5⟩, ⟨8, 10⟩] ∧
    ((∀ i ∈ ([⟨1, 5⟩, ⟨8, 10⟩] : List Interval), i.start ≤ i.end_) ∧
      ([⟨1, 5⟩, ⟨8, 10⟩] : List Interval).Chain' (fun a b => b.start > a.end_) ∧
      ([⟨1, 5⟩, ⟨8, 10⟩] : List Interval).Pairwise (fun a b => a.start < b.start) ∧
      ([⟨1, 5⟩, ⟨8, 10⟩] : List Interval).Pairwise (fun a b => a.end_ < b.start)) :=
  ⟨insertionSort_isStdSort,
    ⟨[Op.add 1 3, Op.add 2 5, Op.delete 7 7, Op.add 8 10], by decide⟩,
    reachable_canonical insertionSort insertionSort_isStdSort [⟨1, 5⟩, ⟨8, 10⟩]
      ⟨[Op.add 1 3, Op.add 2 5, Op.delete 7 7, Op.add 8 10], by decide⟩⟩

/-- C2. Coverage: for every stored sequence and all `s <= e`, right after `addInterval(s, e)`
every integer `p` with `s <= p <= e` has `queryPoint(p) = true`. -/
theorem add_covers (sort : List Interval → List Interval) (hs : IsStdSort sort)
    (l : List Interval) (s e : Int) (h : s ≤ e) (p : Int) (h1 : s ≤ p) (h2 : p ≤ e) :
    queryPoint (addInterval sort l s e).1 p = true := by
  rw [queryPoint_iff_cov, cov_addInterval hs l h]
  right
  omega

theorem add_covers_witness :
    IsStdSort insertionSort ∧ (2 : Int) ≤ 5 ∧ (2 : Int) ≤ 4 ∧ (4 : Int) ≤ 5 ∧
    queryPoint (addInterval insertionSort [⟨1, 3⟩, ⟨9, 7⟩] 2 5).1 4 = true :=
  ⟨insertionSort_isStdSort, by decide, by decide, by decide,
    add_covers insertionSort insertionSort_isStdSort [⟨1, 3⟩, ⟨9, 7⟩] 2 5 (by decide) 4
      (by decide) (by decide)⟩

/-- C3. Order independence: starting from the empty set, adding the pairs of a list in the
given order and in any permuted order leaves the same stored sequence (pairs with
`start > end` are rejected in both runs). -/
theorem add_order_independent (sort : List Interval → List Interval) (hs : IsStdSort sort)
    (ps qs : List (Int × Int)) (h : ps.Perm qs) :
    run sort (ps.map (fun p => Op.add p.1 p.2)) = run sort (qs.map (fun p => Op.add p.1 p.2)) :=
  foldl_add_perm hs h [] canonical_nil

theorem add_order_independent_witness :
    IsStdSort insertionSort ∧
    List.Perm [((1 : Int), (5 : Int)), (6, 9), (5, 6), (4, 2)] [(5, 6), (4, 2), (6, 9), (1, 5)] ∧
    run insertionSort ([((1 : Int), (5 : Int)), (6, 9), (5, 6), (4, 2)].map
        (fun p => Op.add p.1 p.2))
      = run insertionSort ([((5 : Int), (6 : Int)), (4, 2), (6, 9), (1, 5)].map
        (fun p => Op.add p.1 p.2)) :=
  ⟨insertionSort_isStdSort, by decide,
    add_order_independent insertionSort insertionSort_isStdSort
      [(1, 5), (6, 9), (5, 6), (4, 2)] [(5, 6), (4, 2), (6, 9), (1, 5)] (by decide)⟩

/-- C4. Idempotence of add: in every reachable state, calling `addInterval(s, e)` twice in a
row leaves the same stored sequence as calling it once. -/
theorem add_idempotent (sort : List Interval → List Interval) (hs : IsStdSort sort)
    (l : List Interval) (hr : Reachable sort l) (s e : Int) :
    (addInterval sort (addInterval sort l s e).1 s e).1 = (addInterval sort l s e).1 := by
  have hc := canonical_of_reachable hs hr
  by_cases h : s ≤ e
  · have hc' := canonical_addInterval hs l hc s e
    apply addInterval_eq_of_cov hs hc'.1 h hc'
    intro z
    rw [cov_addInterval hs l h]
    tauto
  · rw [addInterval_of_gt sort (addInterval sort l s e).1 (by omega : s > e)]

theorem add_idempotent_witness :
    IsStdSort insertionSort ∧ Reachable insertionSort [⟨1, 3⟩, ⟨5, 8⟩] ∧
    (addInterval insertionSort (addInterval insertionSort [⟨1, 3⟩, ⟨5, 8⟩] 2 6).1 2 6).1
      = (addInterval insertionSort [⟨1, 3⟩, ⟨5, 8⟩] 2 6).1 :=
  ⟨insertionSort_isStdSort, ⟨[Op.add 5 8, Op.add 1 3], by decide⟩,
    add_idempotent insertionSort insertionSort_isStdSort [⟨1, 3⟩, ⟨5, 8⟩]
      ⟨[Op.add 5 8, Op.add 1 3], by decide⟩ 2 6⟩

/-- C5. Invalid add is rejected atomically: for every state, `addInterval(start, end)` with
`start > end` prints the invalid-interval line and leaves the stored sequence as it was; with
`start <= end` it never does so and reports the interval as added.  On the empty set
`add(5, 1)` is rejected and the list stays empty. -/
theorem add_invalid_rejected (sort : List Interval → List Interval) (l : List Interval)
    (s e : Int) :
    (s > e → addInterval sort l s e = (l, Output.invalid)) ∧
      (s ≤ e → (addInterval sort l s e).2 = Output.added) ∧
      ((addInterval sort l s e).2 = Output.invalid ↔ s > e) ∧
      addInterval sort [] 5 1 = ([], Output.invalid) := by
  refine ⟨fun h => addInterval_of_gt sort l h, fun h => ?_, ?_, ?_⟩
  · rw [addInterval_of_le sort l h]
  · by_cases h : s ≤ e
    · rw [addInterval_of_le sort l h]
      simp only [reduceCtorEq, false_iff]
      omega
    · rw [addInterval_of_gt sort l (by omega : s > e)]
      simp only [true_iff]
      omega
  · exact addInterval_of_gt sort [] (by decide)

theorem add_invalid_rejected_witness :
    addInterval insertionSort [⟨1, 3⟩] 7 2 = ([⟨1, 3⟩], Output.invalid) ∧
    (addInterval insertionSort [⟨1, 3⟩] 2 7).2 = Output.added :=
  ⟨(add_invalid_rejected insertionSort [⟨1, 3⟩] 7 2).1 (by decide),
    (add_invalid_rejected insertionSort [⟨1, 3⟩] 2 7).2.1 (by decide)⟩

/-- C6. Delete fails exactly when there is no exact match, and failure is atomic: for every
state, `deleteInterval(s, e)` reports a deletion if and only if some stored interval has
`start = s` and `end = e`; otherwise it reports not-found and the stored sequence is unchanged.
After `add(1, 10)`, `delete(3, 7)` fails and the list is still `[(1, 10)]`. -/
theorem delete_fails_iff_no_match (sort : List Interval → List Interval)
    (hs : IsStdSort sort) (l : List Interval) (s e : Int) :
    ((deleteInterval l s e).2 = Output.deleted ↔ ∃ i ∈ l, i.start = s ∧ i.end_ = e) ∧
      ((¬ ∃ i ∈ l, i.start = s ∧ i.end_ = e) → deleteInterval l s e = (l, Output.notFound)) ∧
      deleteInterval (addInterval sort [] 1 10).1 3 7 = ([⟨1, 10⟩], Output.notFound) := by
  have hmem : (∃ i ∈ l, i.start = s ∧ i.end_ = e) ↔ (⟨s, e⟩ : Interval) ∈ l := by
    constructor
    · rintro ⟨i, hi, h1, h2⟩
      have : i = ⟨s, e⟩ := by cases i; simp only [Interval.mk.injEq]; exact ⟨h1, h2⟩
      rw [← this]; exact hi
    · intro h
      exact ⟨_, h, rfl, rfl⟩
  rw [hmem, deleteInterval_eq]
  refine ⟨?_, ?_, ?_⟩
  · by_cases h : (⟨s, e⟩ : Interval) ∈ l <;> simp [h]
  · intro h
    simp [h]
  · rw [addInterval_nil hs (by decide)]
    decide

theorem delete_fails_iff_no_match_witness :
    IsStdSort insertionSort ∧
    deleteInterval [⟨1, 4⟩, ⟨6, 9⟩] 6 8 = ([⟨1, 4⟩, ⟨6, 9⟩], Output.notFound) :=
  ⟨insertionSort_isStdSort,
    (delete_fails_iff_no_match insertionSort insertionSort_isStdSort
      [⟨1, 4⟩, ⟨6, 9⟩] 6 8).2.1 (by decide)⟩

/-- C7. A successful delete removes exactly the first exact match: when some stored interval
equals `(s, e)`, the sequence splits as `pre ++ (s, e) :: post` with no match in `pre`, the
sequence after `deleteInterval(s, e)` is `pre ++ post`, and the length drops by exactly one. -/
theorem delete_removes_first_match (l : List Interval) (s e : Int)
    (h : ∃ i ∈ l, i.start = s ∧ i.end_ = e) :
    ∃ pre post, l = pre ++ ⟨s, e⟩ :: post ∧ (∀ i ∈ pre, ¬ (i.start = s ∧ i.end_ = e)) ∧
      deleteInterval l s e = (pre ++ post, Output.deleted) ∧
      (deleteInterval l s e).1.length + 1 = l.length := by
  have hm : (⟨s, e⟩ : Interval) ∈ l := by
    obtain ⟨i, hi, h1, h2⟩ := h
    have : i = ⟨s, e⟩ := by cases i; simp only [Interval.mk.injEq]; exact ⟨h1, h2⟩
    rw [← this]; exact hi
  obtain ⟨pre, post, hpre, hl, her⟩ := List.exists_erase_eq hm
  refine ⟨pre, post, hl, ?_, ?_, ?_⟩
  · rintro i hi ⟨h1, h2⟩
    apply hpre
    have : i = ⟨s, e⟩ := by cases i; simp only [Interval.mk.injEq]; exact ⟨h1, h2⟩
    rw [← this]; exact hi
  · rw [deleteInterval_eq, if_pos hm, her]
  · rw [deleteInterval_eq, if_pos hm]
    show (l.erase ⟨s, e⟩).length + 1 = l.length
    rw [her, hl]
    simp only [List.length_append, List.length_cons]
    omega

theorem delete_removes_first_match_witness :
    (∃ i ∈ ([⟨1, 4⟩, ⟨6, 9⟩, ⟨1, 4⟩] : List Interval), i.start = 1 ∧ i.end_ = 4) ∧
    ∃ pre post, ([⟨1, 4⟩, ⟨6, 9⟩, ⟨1, 4⟩] : List Interval) = pre ++ ⟨1, 4⟩ :: post ∧
      (∀ i ∈ pre, ¬ (i.start = 1 ∧ i.end_ = 4)) ∧
      deleteInterval [⟨1, 4⟩, ⟨6, 9⟩, ⟨1, 4⟩] 1 4 = (pre ++ post, Output.deleted) ∧
      (deleteInterval [⟨1, 4⟩, ⟨6, 9⟩, ⟨1, 4⟩] 1 4).1.length + 1
        = ([⟨1, 4⟩, ⟨6, 9⟩, ⟨1, 4⟩] : List Interval).length :=
  ⟨by decide, delete_removes_first_match [⟨1, 4⟩, ⟨6, 9⟩, ⟨1, 4⟩] 1 4 (by decide)⟩

/-- C8. `queryPoint(point)` is true if and only if some stored interval `i` has
`i.start <= point <= i.end`; on the empty set it is false for every point. -/
theorem queryPoint_spec (l : List Interval) (p : Int) :
    (queryPoint l p = true ↔ ∃ i ∈ l, i.start ≤ p ∧ p ≤ i.end_) ∧ queryPoint [] p = false :=
  ⟨queryPoint_iff l p, rfl⟩

/-- C9. `queryRange(start, end)` returns a boolean for every state and every pair of integers,
inverted pairs included, and it is true if and only if some stored interval `i` satisfies
NOT (`end < i.start` OR `start > i.end`).  After `add(1, 5)`, `add(10, 15)`,
`queryRange(4, 11)` is true. -/
theorem queryRange_spec (sort : List Interval → List Interval) (hs : IsStdSort sort)
    (l : List Interval) (s e : Int) :
    (queryRange l s e = true ∨ queryRange l s e = false) ∧
      (queryRange l s e = true ↔ ∃ i ∈ l, ¬ (e < i.start ∨ s > i.end_)) ∧
      queryRange (run sort [Op.add 1 5, Op.add 10 15]) 4 11 = true := by
  refine ⟨?_, queryRange_iff l s e, ?_⟩
  · cases queryRange l s e <;> simp
  · rw [queryRange_iff]
    obtain ⟨i, hi, h1, h2⟩ :=
      addInterval_contains hs (addInterval sort [] 1 5).1 (by decide : (10 : Int) ≤ 15)
    exact ⟨i, hi, by omega⟩

theorem queryRange_spec_witness :
    IsStdSort insertionSort ∧ queryRange [⟨1, 5⟩, ⟨10, 15⟩] 9 6 = false ∧
    queryRange [⟨1, 5⟩, ⟨10, 15⟩] 12 11 = true ∧
    queryRange (run insertionSort [Op.add 1 5, Op.add 10 15]) 4 11 = true :=
  ⟨insertionSort_isStdSort, by decide, by decide,
    (queryRange_spec insertionSort insertionSort_isStdSort [] 0 0).2.2⟩

/-- C10. Unique covering interval after add: in every reachable state and for all `s <= e`,
after `addInterval(s, e)` exactly one stored interval `i` has `i.start <= s` and `e <= i.end`;
counted by position in the sequence there is also exactly one. -/
theorem add_unique_cover (sort : List Interval → List Interval) (hs : IsStdSort sort)
    (l : List Interval) (hr : Reachable sort l) (s e : Int) (h : s ≤ e) :
    (∃! i, i ∈ (addInterval sort l s e).1 ∧ i.start ≤ s ∧ e ≤ i.end_) ∧
      (addInterval sort l s e).1.countP (fun i => decide (i.start ≤ s ∧ e ≤ i.end_)) = 1 := by
  have hc := canonical_addInterval hs l (canonical_of_reachable hs hr) s e
  obtain ⟨i, hi, h1, h2⟩ := addInterval_contains hs l h
  refine ⟨⟨i, ⟨hi, h1, h2⟩, ?_⟩, le_antisymm ?_ ?_⟩
  · rintro j ⟨hj, hj1, hj2⟩
    by_contra hne
    rcases canonical_disjoint hc hj hi hne with h' | h' <;> omega
  · apply countP_le_one
    refine (canonical_pairwise hc).imp ?_
    intro a b hab hp
    simp only [decide_eq_true_eq] at hp
    omega
  · exact List.countP_pos_iff.mpr ⟨i, hi, by simp [h1, h2]⟩

theorem add_unique_cover_witness :
    IsStdSort insertionSort ∧ Reachable insertionSort [⟨1, 3⟩, ⟨5, 8⟩] ∧ (4 : Int) ≤ 5 ∧
    ((∃! i, i ∈ (addInterval insertionSort [⟨1, 3⟩, ⟨5, 8⟩] 4 5).1 ∧ i.start ≤ 4 ∧ 5 ≤ i.end_) ∧
      (addInterval insertionSort [⟨1, 3⟩, ⟨5, 8⟩] 4 5).1.countP
        (fun i => decide (i.start ≤ 4 ∧ 5 ≤ i.end_)) = 1) :=
  ⟨insertionSort_isStdSort, ⟨[Op.add 5 8, Op.add 1 3], by decide⟩, by decide,
    add_unique_cover insertionSort insertionSort_isStdSort [⟨1, 3⟩, ⟨5, 8⟩]
      ⟨[Op.add 5 8, Op.add 1 3], by decide⟩ 4 5 (by decide)⟩

/-- C11. Two-interval merge rule: starting from the empty set, for `a <= b` and `c <= d`, after
`addInterval(a, b)` then `addInterval(c, d)` the list is the single interval
`(min(a,c), max(b,d))` when the closed ranges share a point (`c <= b` and `a <= d`), and
otherwise the two intervals in ascending order of start.  Integer-adjacent ranges stay
separate: `add(1,5)`, `add(6,9)` gives `[(1,5), (6,9)]`; touching ranges merge: `add(1,5)`,
`add(5,9)` gives `[(1,9)]`. -/
theorem two_interval_merge_rule (sort : List Interval → List Interval) (hs : IsStdSort sort)
    (a b c d : Int) (h1 : a ≤ b) (h2 : c ≤ d) :
    ((c ≤ b ∧ a ≤ d) → run sort [Op.add a b, Op.add c d] = [⟨min a c, max b d⟩]) ∧
      (b < c → run sort [Op.add a b, Op.add c d] = [⟨a, b⟩, ⟨c, d⟩]) ∧
      (d < a → run sort [Op.add a b, Op.add c d] = [⟨c, d⟩, ⟨a, b⟩]) ∧
      run sort [Op.add 1 5, Op.add 6 9] = [⟨1, 5⟩, ⟨6, 9⟩] ∧
      run sort [Op.add 1 5, Op.add 5 9] = [⟨1, 9⟩] := by
  refine ⟨fun h => run_add_add_overlap hs h1 h2 h.1 h.2, fun h => run_add_add_right hs h1 h2 h,
    fun h => run_add_add_left hs h1 h2 h, ?_, ?_⟩
  · exact run_add_add_right hs (by decide) (by decide) (by decide)
  · exact run_add_add_overlap hs (by decide : (1 : Int) ≤ 5) (by decide : (5 : Int) ≤ 9)
      (by decide) (by decide)

theorem two_interval_merge_rule_witness :
    IsStdSort insertionSort ∧ (4 : Int) ≤ 8 ∧ (2 : Int) ≤ 6 ∧
    run insertionSort [Op.add 4 8, Op.add 2 6] = [⟨min 4 2, max 8 6⟩] ∧
    run insertionSort [Op.add 1 5, Op.add 5 9] = [⟨1, 9⟩] :=
  ⟨insertionSort_isStdSort, by decide, by decide,
    (two_interval_merge_rule insertionSort insertionSort_isStdSort 4 8 2 6
      (by decide) (by decide)).1 ⟨by decide, by decide⟩,
    (two_interval_merge_rule insertionSort insertionSort_isStdSort 4 8 2 6
      (by decide) (by decide)).2.2.2.2⟩

/-- C12. Delete affects only the removed block: in every reachable state, after a successful
`deleteInterval(s, e)`, `queryRange(a, b)` is true if and only if some interval of the
pre-delete sequence other than `(s, e)` satisfies the overlap formula with `(a, b)`; in
particular `queryRange(s, e)` is false right after the delete and a second
`deleteInterval(s, e)` reports not-found and changes nothing. -/
theorem delete_affects_only_block (sort : List Interval → List Interval) (hs : IsStdSort sort)
    (l : List Interval) (hr : Reachable sort l) (s e : Int)
    (hd : (deleteInterval l s e).2 = Output.deleted) (a b : Int) :
    (queryRange (deleteInterval l s e).1 a b = true ↔
        ∃ i ∈ l, i ≠ ⟨s, e⟩ ∧ ¬ (b < i.start ∨ a > i.end_)) ∧
      queryRange (deleteInterval l s e).1 s e = false ∧
      deleteInterval (deleteInterval l s e).1 s e
        = ((deleteInterval l s e).1, Output.notFound) := by
  have hc := canonical_of_reachable hs hr
  have hm : (⟨s, e⟩ : Interval) ∈ l := (deleteInterval_deleted_iff l s e).mp hd
  have hse : s ≤ e := hc.1 _ hm
  rw [deleteInterval_of_mem hm]
  refine ⟨?_, ?_, ?_⟩
  · rw [queryRange_iff]
    constructor
    · rintro ⟨i, hi, hov⟩
      have := (mem_erase_canonical hc _ i).mp hi
      exact ⟨i, this.2, this.1, hov⟩
    · rintro ⟨i, hi, hne, hov⟩
      exact ⟨i, (mem_erase_canonical hc _ i).mpr ⟨hne, hi⟩, hov⟩
  · rw [← Bool.not_eq_true, queryRange_iff]
    rintro ⟨i, hi, hov⟩
    have hi' := (mem_erase_canonical hc _ i).mp hi
    have hdis := canonical_disjoint hc hi'.2 hm hi'.1
    have hiv := hc.1 i hi'.2
    simp only at hdis
    omega
  · exact deleteInterval_of_not_mem (canonical_nodup hc).not_mem_erase

theorem delete_affects_only_block_witness :
    IsStdSort insertionSort ∧ Reachable insertionSort [⟨1, 3⟩, ⟨5, 8⟩] ∧
    (deleteInterval [⟨1, 3⟩, ⟨5, 8⟩] 5 8).2 = Output.deleted ∧
    ((queryRange (deleteInterval [⟨1, 3⟩, ⟨5, 8⟩] 5 8).1 2 6 = true ↔
        ∃ i ∈ ([⟨1, 3⟩, ⟨5, 8⟩] : List Interval), i ≠ ⟨5, 8⟩ ∧ ¬ (6 < i.start ∨ 2 > i.end_)) ∧
      queryRange (deleteInterval [⟨1, 3⟩, ⟨5, 8⟩] 5 8).1 5 8 = false ∧
      deleteInterval (deleteInterval [⟨1, 3⟩, ⟨5, 8⟩] 5 8).1 5 8
        = ((deleteInterval [⟨1, 3⟩, ⟨5, 8⟩] 5 8).1, Output.notFound)) :=
  ⟨insertionSort_isStdSort, ⟨[Op.add 5 8, Op.add 1 3], by decide⟩, by decide,
    delete_affects_only_block insertionSort insertionSort_isStdSort [⟨1, 3⟩, ⟨5, 8⟩]
      ⟨[Op.add 5 8, Op.add 1 3], by decide⟩ 5 8 (by decide) 2 6⟩

/-- C13. Disjoint add is a pure sorted insertion: in every reachable state, for `s <= e` with
`queryRange(s, e)` false before the call, the stored sequence splits as `pre ++ post` with every
interval of `pre` starting (and ending) before `s` and every interval of `post` starting after
`s` (and after `e`), and after `addInterval(s, e)` the sequence is `pre ++ (s, e) :: post`: the
previous intervals are unchanged and the length grows by exactly one.  `add(1,3)`, `add(2,5)`,
`add(8,10)` gives `[(1,5), (8,10)]`. -/
theorem disjoint_add_is_insertion (sort : List Interval → List Interval) (hs : IsStdSort sort)
    (l : List Interval) (hr : Reachable sort l) (s e : Int) (h : s ≤ e)
    (hq : queryRange l s e = false) :
    (∃ pre post, l = pre ++ post ∧
        (∀ i ∈ pre, i.start < s ∧ i.end_ < s) ∧ (∀ i ∈ post, s < i.start ∧ e < i.start) ∧
        (addInterval sort l s e).1 = pre ++ ⟨s, e⟩ :: post) ∧
      (addInterval sort l s e).1.length = l.length + 1 ∧
      run sort [Op.add 1 3, Op.add 2 5, Op.add 8 10] = [⟨1, 5⟩, ⟨8, 10⟩] := by
  have hc := canonical_of_reachable hs hr
  obtain ⟨pre, post, hl, hpre, hpost⟩ := canonical_split hc (not_overlap_of_queryRange_false hq)
  have hadd : (addInterval sort l s e).1 = pre ++ ⟨s, e⟩ :: post := by
    apply addInterval_eq_of_cov hs hc.1 h (canonical_insert (hl ▸ hc) h hpre hpost)
    intro z
    rw [hl]
    simp only [cov_append, cov_cons]
    tauto
  refine ⟨⟨pre, post, hl, ?_, ?_, hadd⟩, ?_, run_scenario_one hs⟩
  · intro i hi
    have hiv := hc.1 i (hl ▸ List.mem_append_left _ hi)
    have := hpre i hi
    omega
  · intro i hi
    have := hpost i hi
    omega
  · rw [hadd, hl]
    simp only [List.length_append, List.length_cons]
    omega

theorem disjoint_add_is_insertion_witness :
    IsStdSort insertionSort ∧ Reachable insertionSort [⟨1, 5⟩, ⟨10, 12⟩] ∧ (7 : Int) ≤ 8 ∧
    queryRange [⟨1, 5⟩, ⟨10, 12⟩] 7 8 = false ∧
    (addInterval insertionSort [⟨1, 5⟩, ⟨10, 12⟩] 7 8).1 = [⟨1, 5⟩, ⟨7, 8⟩, ⟨10, 12⟩] ∧
    (addInterval insertionSort [⟨1, 5⟩, ⟨10, 12⟩] 7 8).1.length
      = ([⟨1, 5⟩, ⟨10, 12⟩] : List Interval).length + 1 :=
  ⟨insertionSort_isStdSort, ⟨[Op.add 10 12, Op.add 1 5], by decide⟩, by decide, by decide,
    by decide,
    (disjoint_add_is_insertion insertionSort insertionSort_isStdSort [⟨1, 5⟩, ⟨10, 12⟩]
      ⟨[Op.add 10 12, Op.add 1 5], by decide⟩ 7 8 (by decide) (by decide)).2.1⟩

/-- C14. Length bound of add: for every state and all `s <= e`, the length of the stored
sequence after `addInterval(s, e)` is at least 1 and at most the previous length plus one. -/
theorem add_length_bound (sort : List Interval → List Interval) (hs : IsStdSort sort)
    (l : List Interval) (s e : Int) (h : s ≤ e) :
    1 ≤ (addInterval sort l s e).1.length ∧
      (addInterval sort l s e).1.length ≤ l.length + 1 :=
  length_addInterval hs l h

theorem add_length_bound_witness :
    IsStdSort insertionSort ∧ (2 : Int) ≤ 4 ∧
    (1 ≤ (addInterval insertionSort [⟨1, 2⟩, ⟨4, 5⟩] 2 4).1.length ∧
      (addInterval insertionSort [⟨1, 2⟩, ⟨4, 5⟩] 2 4).1.length
        ≤ ([⟨1, 2⟩, ⟨4, 5⟩] : List Interval).length + 1) ∧
    (addInterval insertionSort [⟨1, 2⟩, ⟨4, 5⟩] 2 4).1.length = 1 ∧
    (addInterval insertionSort [⟨1, 2⟩, ⟨4, 5⟩] 2 3).1.length = 2 ∧
    (addInterval insertionSort [⟨1, 2⟩, ⟨4, 5⟩] 7 9).1.length = 3 :=
  ⟨insertionSort_isStdSort, by decide,
    add_length_bound insertionSort insertionSort_isStdSort [⟨1, 2⟩, ⟨4, 5⟩] 2 4 (by decide),
    by decide, by decide, by decide⟩

/-- C15. `clear` always empties the set: for every state, after `clear()` the stored sequence
is empty, so the list is `[]` and `queryPoint(p)` and `queryRange(a, b)` are false for all
integers `p`, `a`, `b`. -/
theorem clear_empties (l : List Interval) (p a b : Int) :
    clear l = ([], Output.cleared) ∧ getIntervals (clear l).1 = [] ∧
      queryPoint (clear l).1 p = false ∧ queryRange (clear l).1 a b = false :=
  ⟨rfl, rfl, rfl, rfl⟩

/-- C16. Add is an exact set union on points: for every state (the stored intervals need not
even have `start <= end`, so in particular for every reachable state), all `s <= e` and every
integer `p`, `queryPoint(p)` after `addInterval(s, e)` is true if and only if `queryPoint(p)`
was true before the call or `s <= p <= e`. -/
theorem add_exact_union (sort : List Interval → List Interval) (hs : IsStdSort sort)
    (l : List Interval) (s e : Int) (h : s ≤ e) (p : Int) :
    queryPoint (addInterval sort l s e).1 p = true ↔
      queryPoint l p = true ∨ (s ≤ p ∧ p ≤ e) := by
  rw [queryPoint_iff_cov, queryPoint_iff_cov, cov_addInterval hs l h]
  constructor
  · rintro (hl | hr)
    · exact Or.inl hl
    · exact Or.inr (by omega)
  · rintro (hl | hr)
    · exact Or.inl hl
    · exact Or.inr (by omega)

theorem add_exact_union_witness :
    IsStdSort insertionSort ∧ (4 : Int) ≤ 6 ∧
    (queryPoint (addInterval insertionSort [⟨1, 3⟩, ⟨6, 9⟩] 4 6).1 5 = true ↔
      queryPoint [⟨1, 3⟩, ⟨6, 9⟩] 5 = true ∨ ((4 : Int) ≤ 5 ∧ (5 : Int) ≤ 6)) ∧
    (queryPoint (addInterval insertionSort [⟨1, 3⟩, ⟨7, 9⟩] 4 5).1 6 = true ↔
      queryPoint [⟨1, 3⟩, ⟨7, 9⟩] 6 = true ∨ ((4 : Int) ≤ 6 ∧ (6 : Int) ≤ 5)) ∧
    queryPoint (addInterval insertionSort [⟨1, 3⟩, ⟨7, 9⟩] 4 5).1 6 = false :=
  ⟨insertionSort_isStdSort, by decide,
    add_exact_union insertionSort insertionSort_isStdSort [⟨1, 3⟩, ⟨6, 9⟩] 4 6 (by decide) 5,
    add_exact_union insertionSort insertionSort_isStdSort [⟨1, 3⟩, ⟨7, 9⟩] 4 5 (by decide) 6,
    by decide⟩

/-- C17. Delete removes exactly the points of the deleted block: in every reachable state,
after a successful `deleteInterval(s, e)`, `queryPoint(p)` is true if and only if it was true
before and NOT (`s <= p <= e`). -/
theorem delete_removes_block_points (sort : List Interval → List Interval)
    (hs : IsStdSort sort) (l : List Interval) (hr : Reachable sort l) (s e : Int)
    (hd : (deleteInterval l s e).2 = Output.deleted) (p : Int) :
    queryPoint (deleteInterval l s e).1 p = true ↔
      queryPoint l p = true ∧ ¬ (s ≤ p ∧ p ≤ e) := by
  have hc := canonical_of_reachable hs hr
  have hm : (⟨s, e⟩ : Interval) ∈ l := (deleteInterval_deleted_iff l s e).mp hd
  rw [deleteInterval_of_mem hm, queryPoint_iff, queryPoint_iff]
  constructor
  · rintro ⟨i, hi, h1, h2⟩
    have hi' := (mem_erase_canonical hc _ i).mp hi
    have hdis := canonical_disjoint hc hi'.2 hm hi'.1
    simp only at hdis
    exact ⟨⟨i, hi'.2, h1, h2⟩, by omega⟩
  · rintro ⟨⟨i, hi, h1, h2⟩, hnot⟩
    refine ⟨i, (mem_erase_canonical hc _ i).mpr ⟨?_, hi⟩, h1, h2⟩
    intro hie
    rw [hie] at h1 h2
    exact hnot ⟨h1, h2⟩

theorem delete_removes_block_points_witness :
    IsStdSort insertionSort ∧ Reachable insertionSort [⟨1, 3⟩, ⟨5, 8⟩] ∧
    (deleteInterval [⟨1, 3⟩, ⟨5, 8⟩] 1 3).2 = Output.deleted ∧
    (queryPoint (deleteInterval [⟨1, 3⟩, ⟨5, 8⟩] 1 3).1 2 = true ↔
      queryPoint [⟨1, 3⟩, ⟨5, 8⟩] 2 = true ∧ ¬ ((1 : Int) ≤ 2 ∧ (2 : Int) ≤ 3)) ∧
    queryPoint (deleteInterval [⟨1, 3⟩, ⟨5, 8⟩] 1 3).1 2 = false ∧
    queryPoint (deleteInterval [⟨1, 3⟩, ⟨5, 8⟩] 1 3).1 6 = true :=
  ⟨insertionSort_isStdSort, ⟨[Op.add 5 8, Op.add 1 3], by decide⟩, by decide,
    delete_removes_block_points insertionSort insertionSort_isStdSort [⟨1, 3⟩, ⟨5, 8⟩]
      ⟨[Op.add 5 8, Op.add 1 3], by decide⟩ 1 3 (by decide) 2,
    by decide, by decide⟩

/-- C18. Delete-then-add round trip: in every reachable state and for every stored interval
`(s, e)`, `deleteInterval(s, e)` succeeds, the following `addInterval(s, e)` succeeds, and the
stored sequence is again exactly the one before the delete. -/
theorem delete_add_roundtrip (sort : List Interval → List Interval) (hs : IsStdSort sort)
    (l : List Interval) (hr : Reachable sort l) (s e : Int)
    (hm : ∃ i ∈ l, i.start = s ∧ i.end_ = e) :
    (deleteInterval l s e).2 = Output.deleted ∧
      addInterval sort (deleteInterval l s e).1 s e = (l, Output.added) := by
  have hc := canonical_of_reachable hs hr
  have hm' : (⟨s, e⟩ : Interval) ∈ l := (mem_iff_exists_fields l s e).mpr hm
  have hse : s ≤ e := hc.1 _ hm'
  rw [deleteInterval_of_mem hm']
  refine ⟨rfl, ?_⟩
  have hfst : (addInterval sort (l.erase ⟨s, e⟩) s e).1 = l := by
    apply addInterval_eq_of_cov hs (canonical_sublist (List.erase_sublist _ _) hc).1 hse hc
    intro z
    constructor
    · rintro ⟨i, hi, h1, h2⟩
      by_cases hie : i = ⟨s, e⟩
      · rw [hie] at h1 h2
        exact Or.inr ⟨h1, h2⟩
      · exact Or.inl ⟨i, (mem_erase_canonical hc _ i).mpr ⟨hie, hi⟩, h1, h2⟩
    · rintro (⟨i, hi, h1, h2⟩ | h12)
      · exact ⟨i, List.mem_of_mem_erase hi, h1, h2⟩
      · exact ⟨⟨s, e⟩, hm', h12.1, h12.2⟩
  have hsnd : (addInterval sort (l.erase ⟨s, e⟩) s e).2 = Output.added := by
    rw [addInterval_of_le sort _ hse]
  exact Prod.ext hfst hsnd

theorem delete_add_roundtrip_witness :
    IsStdSort insertionSort ∧ Reachable insertionSort [⟨1, 3⟩, ⟨5, 8⟩, ⟨10, 11⟩] ∧
    (∃ i ∈ ([⟨1, 3⟩, ⟨5, 8⟩, ⟨10, 11⟩] : List Interval), i.start = 5 ∧ i.end_ = 8) ∧
    (deleteInterval [⟨1, 3⟩, ⟨5, 8⟩, ⟨10, 11⟩] 5 8).2 = Output.deleted ∧
    addInterval insertionSort (deleteInterval [⟨1, 3⟩, ⟨5, 8⟩, ⟨10, 11⟩] 5 8).1 5 8
      = ([⟨1, 3⟩, ⟨5, 8⟩, ⟨10, 11⟩], Output.added) :=
  ⟨insertionSort_isStdSort, ⟨[Op.add 10 11, Op.add 5 8, Op.add 1 3], by decide⟩, by decide,
    delete_add_roundtrip insertionSort insertionSort_isStdSort [⟨1, 3⟩, ⟨5, 8⟩, ⟨10, 11⟩]
      ⟨[Op.add 10 11, Op.add 5 8, Op.add 1 3], by decide⟩ 5 8 (by decide)⟩

/-- C19. `queryRange` agrees with `queryPoint` on well-formed queries: for every state whose
intervals all have `start <= end` and all `s <= e`, `queryRange(s, e)` is true if and only if
some integer `p` with `s <= p <= e` has `queryPoint(p)` true; `queryRange(p, p)` equals
`queryPoint(p)` in every state.  For an inverted query the equivalence is not claimed: on
`[(1, 10)]`, `queryRange(5, 3)` is true although no integer lies between 5 and 3. -/
theorem queryRange_agrees_with_queryPoint (l : List Interval)
    (hv : ∀ i ∈ l, i.start ≤ i.end_) (s e : Int) (h : s ≤ e) :
    (queryRange l s e = true ↔ ∃ p, s ≤ p ∧ p ≤ e ∧ queryPoint l p = true) ∧
      (∀ p, queryRange l p p = queryPoint l p) ∧
      (queryRange [⟨1, 10⟩] 5 3 = true ∧
        ¬ ∃ p : Int, 5 ≤ p ∧ p ≤ 3 ∧ queryPoint [⟨1, 10⟩] p = true) := by
  refine ⟨?_, ?_, by decide, ?_⟩
  · rw [queryRange_iff]
    constructor
    · rintro ⟨i, hi, hov⟩
      have hiv := hv i hi
      refine ⟨max s i.start, by omega, by omega, ?_⟩
      exact (queryPoint_iff l _).mpr ⟨i, hi, by omega, by omega⟩
    · rintro ⟨p, h1, h2, hp⟩
      obtain ⟨i, hi, h3, h4⟩ := (queryPoint_iff l p).mp hp
      exact ⟨i, hi, by omega⟩
  · intro p
    rw [Bool.eq_iff_iff, queryRange_iff, queryPoint_iff]
    constructor
    · rintro ⟨i, hi, hov⟩
      exact ⟨i, hi, by omega, by omega⟩
    · rintro ⟨i, hi, h1, h2⟩
      exact ⟨i, hi, by omega⟩
  · rintro ⟨p, h1, h2, -⟩
    omega

theorem queryRange_agrees_with_queryPoint_witness :
    (∀ i ∈ ([⟨1, 3⟩, ⟨6, 9⟩] : List Interval), i.start ≤ i.end_) ∧ (4 : Int) ≤ 7 ∧
    (queryRange [⟨1, 3⟩, ⟨6, 9⟩] 4 7 = true ↔
      ∃ p, 4 ≤ p ∧ p ≤ 7 ∧ queryPoint [⟨1, 3⟩, ⟨6, 9⟩] p = true) ∧
    queryRange [⟨1, 3⟩, ⟨6, 9⟩] 4 7 = true ∧ queryRange [⟨1, 3⟩, ⟨6, 9⟩] 4 5 = false :=
  ⟨by decide, by decide,
    (queryRange_agrees_with_queryPoint [⟨1, 3⟩, ⟨6, 9⟩] (by decide) 4 7 (by decide)).1,
    by decide, by decide⟩

/-- C20. The merge result does not depend on how the sort orders ties: the comparator looks at
`start` only, and for two arrangements of the same multiset of intervals with `start <= end`
that are both ascending by `start`, the linear pass of `mergeIntervals` gives the same output;
hence `mergeIntervals` gives the same result for every sort that meets the contract of
`std::sort` and every arrangement of the stored multiset. -/
theorem merge_independent_of_ties (l₁ l₂ : List Interval) (hp : l₁.Perm l₂)
    (hv : ∀ i ∈ l₁, i.start ≤ i.end_) :
    (∀ a b : Interval, Interval.lt a b = decide (a.start < b.start)) ∧
      (l₁.Pairwise (fun a b => a.start ≤ b.start) →
        l₂.Pairwise (fun a b => a.start ≤ b.start) → mergePass l₁ = mergePass l₂) ∧
      (∀ sort₁ sort₂, IsStdSort sort₁ → IsStdSort sort₂ →
        mergeIntervals sort₁ l₁ = mergeIntervals sort₂ l₂) := by
  have hv₂ : Valid l₂ := valid_perm hp.symm hv
  refine ⟨fun _ _ => rfl, ?_, ?_⟩
  · intro h₁ h₂
    apply canonical_ext ⟨valid_mergePass l₁ hv, separated_mergePass l₁⟩
      ⟨valid_mergePass l₂ hv₂, separated_mergePass l₂⟩
    intro z
    rw [cov_mergePass l₁ h₁, cov_mergePass l₂ h₂, cov_perm hp]
  · intro sort₁ sort₂ hs₁ hs₂
    apply canonical_ext (canonical_mergeIntervals hs₁ l₁ hv)
      (canonical_mergeIntervals hs₂ l₂ hv₂)
    intro z
    rw [cov_mergeIntervals hs₁, cov_mergeIntervals hs₂, cov_perm hp]

theorem merge_independent_of_ties_witness :
    List.Perm ([⟨1, 3⟩, ⟨1, 5⟩, ⟨4, 6⟩, ⟨8, 9⟩] : List Interval)
      [⟨1, 5⟩, ⟨1, 3⟩, ⟨4, 6⟩, ⟨8, 9⟩] ∧
    (∀ i ∈ ([⟨1, 3⟩, ⟨1, 5⟩, ⟨4, 6⟩, ⟨8, 9⟩] : List Interval), i.start ≤ i.end_) ∧
    mergePass [⟨1, 3⟩, ⟨1, 5⟩, ⟨4, 6⟩, ⟨8, 9⟩] = mergePass [⟨1, 5⟩, ⟨1, 3⟩, ⟨4, 6⟩, ⟨8, 9⟩] ∧
    mergePass [⟨1, 3⟩, ⟨1, 5⟩, ⟨4, 6⟩, ⟨8, 9⟩] = [⟨1, 6⟩, ⟨8, 9⟩] :=
  ⟨by decide, by decide,
    (merge_independent_of_ties [⟨1, 3⟩, ⟨1, 5⟩, ⟨4, 6⟩, ⟨8, 9⟩]
      [⟨1, 5⟩, ⟨1, 3⟩, ⟨4, 6⟩, ⟨8, 9⟩] (by decide) (by decide)).2.1
      (by decide) (by decide),
    by decide⟩

end IntervalManager
